import Mathlib

/-!
# Verification of the Acala `dex-aggregator` module

Shallow embedding of `modules/dex-aggregator/src/lib.rs`: the path search
(`optimal_path_with_exact_supply` / `optimal_path_with_exact_target`), the
route evaluators (`get_target_amount` / `get_supply_amount`), the entry-point
validation (`get_best_path_with_supply` / `get_best_path_with_target`) and the
transactional route executors (`swap_with_exact_supply` /
`swap_with_exact_target`).

Machine integers: `Balance` is Rust `u128`; all amounts produced by the
external AMM oracle fit in `u128`, and the only place the width matters is the
sentinel `u128::MAX` used by the exact-target search, modelled as `UMAX`.
All other arithmetic in the module is comparison only, so `Nat` is faithful.
-/

namespace DexAggregator

/-- Token identifier (`CurrencyId`): opaque, equality-comparable. -/
abbrev CurrencyId := Nat

/-- `Balance` is `u128` in the source; amounts are non-negative integers. -/
abbrev Balance := Nat

/-- `u128::MAX`, the initial `optimal_balance` of the exact-target search. -/
def UMAX : Balance := 2 ^ 128 - 1

/-- Modelled from the spec: `AvailablePool` (support crate, not under `src/`)
is a (venue tag, pool pair) pair; it exposes the two tokens of the pair in a
canonical order via `first`/`second`. -/
structure AvailablePool where
  amm : Nat
  first : CurrencyId
  second : CurrencyId
deriving DecidableEq, Repr, Inhabited

/-- Modelled from the spec: `swap()` flips the orientation of a pool. -/
def AvailablePool.swap (p : AvailablePool) : AvailablePool :=
  ⟨p.amm, p.second, p.first⟩

/-- Modelled from the spec: a trading direction is an ordered
(source, destination) token pair. -/
structure TradingDirection where
  first : CurrencyId
  second : CurrencyId
deriving DecidableEq, Repr

/-- Modelled from the spec: `TradingDirection::from_currency_ids` rejects
reflexive requests (source = destination) before any search begins. -/
def TradingDirection.from_currency_ids (a b : CurrencyId) : Option TradingDirection :=
  if a = b then none else some ⟨a, b⟩

/-- The pool registry together with the two pricing-oracle queries consumed
from the external AMM collaborator (`T::Aggregator`), as seen by one call:
a fixed snapshot. -/
structure Aggregator where
  all_active_pairs : List AvailablePool
  aggregator_get_target_amount : AvailablePool → Balance → Option Balance
  aggregator_get_supply_amount : AvailablePool → Balance → Option Balance

/-- `Error<T>` of the pallet, plus `Other` for errors raised by the external
swap-execution primitives (`DispatchError`s that are not pallet errors). -/
inductive AggError where
  | BelowMinimumTarget
  | AboveMaximumSupply
  | NoPossibleTradingPath
  | InvalidCurrencyId
  | InvalidPathLength
  | ZeroPathLength
  | Other (code : Nat)
deriving DecidableEq, Repr

/-- `Pallet::pool_first_match`: orient `pool` so that its `first` token is
`id`, if possible. -/
def pool_first_match (id : CurrencyId) (pool : AvailablePool) : Option AvailablePool :=
  if pool.first = id then some pool
  else if pool.second = id then some pool.swap
  else none

/-- `Pallet::pool_second_match`: orient `pool` so that its `second` token is
`id`, if possible. -/
def pool_second_match (id : CurrencyId) (pool : AvailablePool) : Option AvailablePool :=
  if pool.second = id then some pool
  else if pool.first = id then some pool.swap
  else none

/-- The loop of `Pallet::get_target_amount`: `cp` is `cache_pool` (the running
current token), `m` is `cache_money`. -/
def target_go (A : Aggregator) : CurrencyId → Balance → List AvailablePool → Option Balance
  | _, m, [] => some m
  | cp, m, pool :: rest =>
    if cp = pool.first then
      match A.aggregator_get_target_amount pool m with
      | some i => target_go A pool.second i rest
      | none => none
    else none

/-- `Pallet::get_target_amount`: forward walk of a path with the forward
pricing oracle; `None` on empty path, broken continuity, or oracle failure. -/
def get_target_amount (A : Aggregator) (path : List AvailablePool) (supply_amount : Balance) :
    Option Balance :=
  match path with
  | [] => none
  | p :: _ => target_go A p.first supply_amount path

/-- The loop of `Pallet::get_supply_amount`, which iterates over the reversed
path: `cp` is `cache_pool`, `m` is `cache_money`. -/
def supply_go (A : Aggregator) : CurrencyId → Balance → List AvailablePool → Option Balance
  | _, m, [] => some m
  | cp, m, pool :: rest =>
    if cp = pool.second then
      match A.aggregator_get_supply_amount pool m with
      | some i => supply_go A pool.first i rest
      | none => none
    else none

/-- `Pallet::get_supply_amount`: backward walk of a path (from the last hop)
with the inverse pricing oracle. -/
def get_supply_amount (A : Aggregator) (path : List AvailablePool) (target_amount : Balance) :
    Option Balance :=
  match path.getLast? with
  | none => none
  | some lastp => supply_go A lastp.second target_amount path.reverse

/-- The mutable state of the search loop in
`optimal_path_with_exact_supply` / `optimal_path_with_exact_target`. -/
structure SearchState where
  optimal_path : List AvailablePool
  optimal_balance : Balance
  cached_pools : List AvailablePool
  cached_paths : List (List AvailablePool)
deriving DecidableEq, Repr

/-- `Vec::insert(n, a)`: insert `a` at index `n` (used by the search to insert
a bridging hop just before the final hop of a cached path). -/
def vecInsert (n : Nat) (a : α) : List α → List α
  | [] => [a]
  | x :: xs =>
    match n with
    | 0 => a :: x :: xs
    | m + 1 => x :: vecInsert m a xs

/-- Iteration `i = 0` of the exact-supply search: orient every pool whose
either side is the source token, cache it, and score it if it is already a
complete (direct) path. -/
def supplyStep0 (A : Aggregator) (pair : TradingDirection) (supply_amount : Balance)
    (st : SearchState) : SearchState :=
  A.all_active_pairs.foldl (fun st pool =>
    match pool_first_match pair.first pool with
    | none => st
    | some mp =>
      let st := { st with cached_pools := st.cached_pools ++ [mp] }
      if mp.second = pair.second then
        match A.aggregator_get_target_amount mp supply_amount with
        | some nb =>
          if st.optimal_balance < nb then
            { st with optimal_path := [mp], optimal_balance := nb }
          else st
        | none => st
      else st) st

/-- Iteration `i = 1` of the exact-supply search: pair every cached length-1
hop with every pool oriented to end at the destination; the pair is cached
*before* the continuity check, and scored only if continuous. -/
def supplyStep1 (A : Aggregator) (pair : TradingDirection) (supply_amount : Balance)
    (st : SearchState) : SearchState :=
  st.cached_pools.foldl (fun st1 cp =>
    A.all_active_pairs.foldl (fun st2 pool =>
      match pool_second_match pair.second pool with
      | none => st2
      | some mp =>
        let st3 := { st2 with cached_paths := st2.cached_paths ++ [[cp, mp]] }
        if mp.first = cp.second then
          match get_target_amount A [cp, mp] supply_amount with
          | some nb =>
            if st3.optimal_balance < nb then
              { st3 with optimal_path := [cp, mp], optimal_balance := nb }
            else st3
          | none => st3
        else st3) st1) st

/-- Iterations `i ≥ 2` of the exact-supply search: for each cached path of
length `i`, insert a bridging hop at position `i - 1`; the extension is cached
before the closing-continuity check, and the score — as in the source — is the
evaluation of the *unextended* `path` while `optimal_path` is set to the
extended `new_path`. The new frontier replaces the old. -/
def supplyStep2 (A : Aggregator) (supply_amount : Balance) (i : Nat)
    (st : SearchState) : SearchState :=
  st.cached_paths.foldl (fun st2 path =>
    if path.length = i then
      let first_token := (path.getD (path.length - 2) default).second
      let second_token := (path.getD (path.length - 1) default).first
      A.all_active_pairs.foldl (fun st3 pool =>
        match pool_first_match first_token pool with
        | none => st3
        | some mp =>
          let new_path := vecInsert (i - 1) mp path
          let st4 := { st3 with cached_paths := st3.cached_paths ++ [new_path] }
          if second_token = mp.second then
            match get_target_amount A path supply_amount with
            | some nb =>
              if st4.optimal_balance < nb then
                { st4 with optimal_path := new_path, optimal_balance := nb }
              else st4
            | none => st4
          else st4) st2
    else st2)
    { st with cached_paths := [] }

/-- One iteration of the exact-supply search loop. -/
def supplyStep (A : Aggregator) (pair : TradingDirection) (supply_amount : Balance)
    (st : SearchState) (i : Nat) : SearchState :=
  if i = 0 then supplyStep0 A pair supply_amount st
  else if i = 1 then supplyStep1 A pair supply_amount st
  else supplyStep2 A supply_amount i st

/-- The exact-supply search state after `k` iterations of the `while` loop. -/
def runSupply (A : Aggregator) (pair : TradingDirection) (supply_amount : Balance) :
    Nat → SearchState
  | 0 => ⟨[], 0, [], []⟩
  | k + 1 => supplyStep A pair supply_amount (runSupply A pair supply_amount k) k

/-- `Pallet::optimal_path_with_exact_supply` with the hop limit
(`T::AggregatorTradingPathLimit`) passed explicitly. -/
def optimal_path_with_exact_supply (A : Aggregator) (limit : Nat) (pair : TradingDirection)
    (supply_amount : Balance) : Option (List AvailablePool × Balance) :=
  let st := runSupply A pair supply_amount limit
  if st.optimal_path = [] then none else some (st.optimal_path, st.optimal_balance)

/-- Iteration `i = 0` of the exact-target search (dual: inverse oracle,
strictly-smaller update, sentinel `u128::MAX`). -/
def targetStep0 (A : Aggregator) (pair : TradingDirection) (target_amount : Balance)
    (st : SearchState) : SearchState :=
  A.all_active_pairs.foldl (fun st pool =>
    match pool_first_match pair.first pool with
    | none => st
    | some mp =>
      let st := { st with cached_pools := st.cached_pools ++ [mp] }
      if mp.second = pair.second then
        match A.aggregator_get_supply_amount mp target_amount with
        | some nb =>
          if nb < st.optimal_balance then
            { st with optimal_path := [mp], optimal_balance := nb }
          else st
        | none => st
      else st) st

/-- Iteration `i = 1` of the exact-target search. -/
def targetStep1 (A : Aggregator) (pair : TradingDirection) (target_amount : Balance)
    (st : SearchState) : SearchState :=
  st.cached_pools.foldl (fun st1 cp =>
    A.all_active_pairs.foldl (fun st2 pool =>
      match pool_second_match pair.second pool with
      | none => st2
      | some mp =>
        let st3 := { st2 with cached_paths := st2.cached_paths ++ [[cp, mp]] }
        if mp.first = cp.second then
          match get_supply_amount A [cp, mp] target_amount with
          | some nb =>
            if nb < st3.optimal_balance then
              { st3 with optimal_path := [cp, mp], optimal_balance := nb }
            else st3
          | none => st3
        else st3) st1) st

/-- Iterations `i ≥ 2` of the exact-target search. -/
def targetStep2 (A : Aggregator) (target_amount : Balance) (i : Nat)
    (st : SearchState) : SearchState :=
  st.cached_paths.foldl (fun st2 path =>
    if path.length = i then
      let first_token := (path.getD (path.length - 2) default).second
      let second_token := (path.getD (path.length - 1) default).first
      A.all_active_pairs.foldl (fun st3 pool =>
        match pool_first_match first_token pool with
        | none => st3
        | some mp =>
          let new_path := vecInsert (i - 1) mp path
          let st4 := { st3 with cached_paths := st3.cached_paths ++ [new_path] }
          if second_token = mp.second then
            match get_supply_amount A path target_amount with
            | some nb =>
              if nb < st4.optimal_balance then
                { st4 with optimal_path := new_path, optimal_balance := nb }
              else st4
            | none => st4
          else st4) st2
    else st2)
    { st with cached_paths := [] }

/-- One iteration of the exact-target search loop. -/
def targetStep (A : Aggregator) (pair : TradingDirection) (target_amount : Balance)
    (st : SearchState) (i : Nat) : SearchState :=
  if i = 0 then targetStep0 A pair target_amount st
  else if i = 1 then targetStep1 A pair target_amount st
  else targetStep2 A target_amount i st

/-- The exact-target search state after `k` iterations of the `while` loop. -/
def runTarget (A : Aggregator) (pair : TradingDirection) (target_amount : Balance) :
    Nat → SearchState
  | 0 => ⟨[], UMAX, [], []⟩
  | k + 1 => targetStep A pair target_amount (runTarget A pair target_amount k) k

/-- `Pallet::optimal_path_with_exact_target`. -/
def optimal_path_with_exact_target (A : Aggregator) (limit : Nat) (pair : TradingDirection)
    (target_amount : Balance) : Option (List AvailablePool × Balance) :=
  let st := runTarget A pair target_amount limit
  if st.optimal_path = [] then none else some (st.optimal_path, st.optimal_balance)

/-- `Pallet::get_best_path_with_supply`: validate the pair, run the search,
check the caller's minimum, then the defensive path-length check. -/
def get_best_path_with_supply (A : Aggregator) (limit : Nat)
    (supply_token target_token : CurrencyId) (supply_amount min_target_amount : Balance) :
    Except AggError (List AvailablePool) :=
  match TradingDirection.from_currency_ids supply_token target_token with
  | none => .error .InvalidCurrencyId
  | some pair =>
    match optimal_path_with_exact_supply A limit pair supply_amount with
    | none => .error .NoPossibleTradingPath
    | some best_path =>
      if min_target_amount ≤ best_path.2 then
        if best_path.1.length < limit then .ok best_path.1
        else .error .InvalidPathLength
      else .error .BelowMinimumTarget

/-- `Pallet::get_best_path_with_target`. -/
def get_best_path_with_target (A : Aggregator) (limit : Nat)
    (supply_token target_token : CurrencyId) (target_amount max_supply_amount : Balance) :
    Except AggError (List AvailablePool × Balance) :=
  match TradingDirection.from_currency_ids supply_token target_token with
  | none => .error .InvalidCurrencyId
  | some pair =>
    match optimal_path_with_exact_target A limit pair target_amount with
    | none => .error .NoPossibleTradingPath
    | some best_path =>
      if best_path.2 ≤ max_supply_amount then
        if best_path.1.length < limit then .ok best_path
        else .error .InvalidPathLength
      else .error .AboveMaximumSupply

/-- The execution environment of one extrinsic: the aggregator snapshot used
for quoting plus the state-mutating swap primitives
(`aggregator_swap_with_exact_supply` / `aggregator_swap_with_exact_target`)
acting on an abstract chain state `σ` (balances and pool reserves). -/
structure ExecEnv (σ : Type) where
  agg : Aggregator
  swapS : Nat → AvailablePool → Balance → Balance → σ → σ × Except AggError Balance
  swapT : Nat → AvailablePool → Balance → Balance → σ → σ × Except AggError Balance

/-- The hop loop of `swap_with_exact_supply`: every hop but the last is
executed with minimum target amount zero, chaining the returned balance; the
final hop (`i == last_path_elem`) uses the caller's `min_target_amount`. -/
def exec_supply_hops (E : ExecEnv σ) (who : Nat) (min_target_amount : Balance) :
    List AvailablePool → Balance → σ → σ × Except AggError Balance
  | [], balance, s => (s, .ok balance)
  | [pool], balance, s => E.swapS who pool balance min_target_amount s
  | pool :: next :: rest, balance, s =>
    match E.swapS who pool balance 0 s with
    | (s', .ok b') => exec_supply_hops E who min_target_amount (next :: rest) b' s'
    | (s', .error e) => (s', .error e)

/-- The hop loop of `swap_with_exact_target`: non-final hops run
`do_swap_with_exact_supply` with minimum zero on the propagated estimate; the
final hop runs `do_swap_with_exact_target` with the caller's target amount,
bounded by the remaining propagated balance. -/
def exec_target_hops (E : ExecEnv σ) (who : Nat) (target_amount : Balance) :
    List AvailablePool → Balance → σ → σ × Except AggError Balance
  | [], balance, s => (s, .ok balance)
  | [pool], balance, s => E.swapT who pool target_amount balance s
  | pool :: next :: rest, balance, s =>
    match E.swapS who pool balance 0 s with
    | (s', .ok b') => exec_target_hops E who target_amount (next :: rest) b' s'
    | (s', .error e) => (s', .error e)

/-- The body of the `swap_with_exact_supply` extrinsic, before the
transactional scope is applied (event deposition carries no state we model). -/
def swap_with_exact_supply_body (E : ExecEnv σ) (limit : Nat) (who : Nat)
    (supply_token target_token : CurrencyId) (supply_amount min_target_amount : Balance)
    (s : σ) : σ × Except AggError Unit :=
  match get_best_path_with_supply E.agg limit supply_token target_token
      supply_amount min_target_amount with
  | .error e => (s, .error e)
  | .ok best_path =>
    if best_path = [] then (s, .error .ZeroPathLength)
    else
      match exec_supply_hops E who min_target_amount best_path supply_amount s with
      | (s', .ok _) => (s', .ok ())
      | (s', .error e) => (s', .error e)

/-- The body of the `swap_with_exact_target` extrinsic. -/
def swap_with_exact_target_body (E : ExecEnv σ) (limit : Nat) (who : Nat)
    (supply_token target_token : CurrencyId) (target_amount max_supply_amount : Balance)
    (s : σ) : σ × Except AggError Unit :=
  match get_best_path_with_target E.agg limit supply_token target_token
      target_amount max_supply_amount with
  | .error e => (s, .error e)
  | .ok (best_path, supply_estimate) =>
    if best_path = [] then (s, .error .ZeroPathLength)
    else
      match exec_target_hops E who target_amount best_path supply_estimate s with
      | (s', .ok _) => (s', .ok ())
      | (s', .error e) => (s', .error e)

/-- Modelled from the spec: the `#[transactional]` attribute (frame-support,
not under `src/`) wraps the dispatchable in a single all-or-nothing storage
scope — on any error the pre-call state is restored verbatim. -/
def transactional (body : σ → σ × Except AggError Unit) (s : σ) : σ × Except AggError Unit :=
  match body s with
  | (s', .ok u) => (s', .ok u)
  | (_, .error e) => (s, .error e)

/-- The `swap_with_exact_supply` extrinsic: transactional wrapper around the
quote-validate-execute body. -/
def swap_with_exact_supply (E : ExecEnv σ) (limit : Nat) (who : Nat)
    (supply_token target_token : CurrencyId) (supply_amount min_target_amount : Balance) :
    σ → σ × Except AggError Unit :=
  transactional
    (swap_with_exact_supply_body E limit who supply_token target_token
      supply_amount min_target_amount)

/-- The `swap_with_exact_target` extrinsic. -/
def swap_with_exact_target (E : ExecEnv σ) (limit : Nat) (who : Nat)
    (supply_token target_token : CurrencyId) (target_amount max_supply_amount : Balance) :
    σ → σ × Except AggError Unit :=
  transactional
    (swap_with_exact_target_body E limit who supply_token target_token
      target_amount max_supply_amount)

/-! ## Path continuity and pure oracle-chain evaluation -/

/-- Hop-to-hop continuity: the output token of a hop equals the input token of
the next hop. -/
abbrev contRel (a b : AvailablePool) : Prop := a.second = b.first

/-- The continuity relation along a *reversed* path. -/
abbrev contRelRev (a b : AvailablePool) : Prop := a.first = b.second

/-- The input token of a path's first hop. -/
def pathSource (path : List AvailablePool) : Option CurrencyId := path.head?.map (·.first)

/-- The output token of a path's last hop. -/
def pathDest (path : List AvailablePool) : Option CurrencyId := path.getLast?.map (·.second)

/-- Pure forward chaining of the oracle's target-amount queries along a path,
with no token checks: the amount side of `get_target_amount`. -/
def evalChainT (A : Aggregator) : List AvailablePool → Balance → Option Balance
  | [], m => some m
  | p :: r, m =>
    match A.aggregator_get_target_amount p m with
    | some i => evalChainT A r i
    | none => none

/-- Pure chaining of the oracle's supply-amount queries along a (reversed)
path: the amount side of `get_supply_amount`. -/
def evalChainS (A : Aggregator) : List AvailablePool → Balance → Option Balance
  | [], m => some m
  | p :: r, m =>
    match A.aggregator_get_supply_amount p m with
    | some i => evalChainS A r i
    | none => none

/-- The continuity checks performed by `target_go` when the running token
starts at `cp`. -/
def ChainFrom (cp : CurrencyId) : List AvailablePool → Prop
  | [] => True
  | p :: r => cp = p.first ∧ ChainFrom p.second r

/-- The continuity checks performed by `supply_go` (which walks the reversed
path) when the running token starts at `cp`. -/
def ChainFromRev (cp : CurrencyId) : List AvailablePool → Prop
  | [] => True
  | p :: r => cp = p.second ∧ ChainFromRev p.first r

/-! ## Search-loop invariants -/

/-- A path fit to be returned for direction `pair`: non-empty, hop-to-hop
continuous, starting at the source token and ending at the destination. -/
def GoodPath (pair : TradingDirection) (q : List AvailablePool) : Prop :=
  q ≠ [] ∧ List.Chain' contRel q ∧
    pathSource q = some pair.first ∧ pathDest q = some pair.second

/-- What actually holds of every path stored in the search frontier
(`cached_paths`): at least two hops, endpoints matching the request, and
continuity at every junction *except possibly the one before the final hop*
(the frontier stores source-side prefixes glued to a destination-side final
hop before the closing continuity check runs). -/
def FrontierOk (pair : TradingDirection) (q : List AvailablePool) : Prop :=
  2 ≤ q.length ∧ List.Chain' contRel q.dropLast ∧
    pathSource q = some pair.first ∧ pathDest q = some pair.second

/-- Invariant of the exact-supply search state. -/
def InvS (pair : TradingDirection) (st : SearchState) : Prop :=
  (∀ p ∈ st.cached_pools, p.first = pair.first) ∧
  (∀ q ∈ st.cached_paths, FrontierOk pair q) ∧
  (st.optimal_path = [] ∨ (GoodPath pair st.optimal_path ∧ 0 < st.optimal_balance))

/-- Invariant of the exact-target search state (sentinel `u128::MAX`). -/
def InvT (pair : TradingDirection) (st : SearchState) : Prop :=
  (∀ p ∈ st.cached_pools, p.first = pair.first) ∧
  (∀ q ∈ st.cached_paths, FrontierOk pair q) ∧
  st.optimal_balance ≤ UMAX ∧
  (st.optimal_path = [] ∨ (GoodPath pair st.optimal_path ∧ st.optimal_balance < UMAX))

/-! ## Concrete fixtures used by counterexamples and witnesses -/

/-- Registry for the C1 failing input: pools (0,1), (1,2), (2,3) and the
self-loop pool (2,2), with a pricing oracle that adds one unit per hop. -/
def aggC1 : Aggregator :=
  ⟨[⟨0, 0, 1⟩, ⟨0, 1, 2⟩, ⟨0, 2, 3⟩, ⟨0, 2, 2⟩],
    fun _ m => some (m + 1), fun _ m => some (m + 1)⟩

/-- Registry with a single direct pool (0,1) and a constant-5 oracle. -/
def aggC2 : Aggregator := ⟨[⟨0, 0, 1⟩], fun _ _ => some 5, fun _ _ => some 5⟩

/-- Execution environment over `σ = Nat` whose swap primitives succeed and
leave the state unchanged, used to surface the C2 error at the extrinsic. -/
def envC2 : ExecEnv Nat :=
  ⟨aggC2, fun _ _ b _ s => (s, .ok b), fun _ _ _ b s => (s, .ok b)⟩

/-- Registry with a continuous two-hop route (0,1),(1,2), add-one oracle. -/
def aggC3 : Aggregator :=
  ⟨[⟨0, 0, 1⟩, ⟨0, 1, 2⟩], fun _ m => some (m + 1), fun _ m => some (m + 1)⟩

/-- Registry with two pools (0,1),(2,3) that do not connect, add-one oracle:
searching 0 → 3 caches the discontinuous skeleton [(0,1),(2,3)]. -/
def aggC4 : Aggregator :=
  ⟨[⟨0, 0, 1⟩, ⟨0, 2, 3⟩], fun _ m => some (m + 1), fun _ m => some (m + 1)⟩

/-- Registry with a single direct pool (0,1) and a constant-5 oracle. -/
def aggC5 : Aggregator := ⟨[⟨0, 0, 1⟩], fun _ _ => some 5, fun _ _ => some 5⟩

/-- Execution environment over `σ = Nat` whose swap primitives mutate the
state and then fail: exercises the transactional rollback. -/
def envC6 : ExecEnv Nat :=
  ⟨⟨[⟨0, 0, 1⟩], fun _ _ => some 5, fun _ _ => some 5⟩,
    fun _ _ _ _ s => (s + 1, .error (.Other 0)),
    fun _ _ _ _ s => (s + 1, .error (.Other 0))⟩

/-- Registry whose sole candidate path requires exactly `u128::MAX` supply. -/
def aggC10 : Aggregator := ⟨[⟨0, 0, 1⟩], fun _ _ => some 5, fun _ _ => some UMAX⟩

/-- Registry with a direct pool quoting target 5 for any supply. -/
def aggC10s : Aggregator := ⟨[⟨0, 0, 1⟩], fun _ _ => some 5, fun _ _ => some 5⟩

/-- Registry with a direct pool requiring supply 4 for any target. -/
def aggC10t : Aggregator := ⟨[⟨0, 0, 1⟩], fun _ _ => some 5, fun _ _ => some 4⟩

theorem chainFrom_cons {cp : CurrencyId} {p : AvailablePool} {r : List AvailablePool} :
    ChainFrom cp (p :: r) ↔ cp = p.first ∧ ChainFrom p.second r := Iff.rfl

theorem chainFromRev_cons {cp : CurrencyId} {p : AvailablePool} {r : List AvailablePool} :
    ChainFromRev cp (p :: r) ↔ cp = p.second ∧ ChainFromRev p.first r := Iff.rfl

theorem target_go_of_chainFrom (A : Aggregator) :
    ∀ (l : List AvailablePool) (cp : CurrencyId) (m : Balance),
      ChainFrom cp l → target_go A cp m l = evalChainT A l m := by
  intro l
  induction l with
  | nil => intro cp m _; rfl
  | cons p r ih =>
    intro cp m h
    obtain ⟨h1, h2⟩ := h
    simp only [target_go, evalChainT, if_pos h1]
    cases A.aggregator_get_target_amount p m with
    | none => rfl
    | some i => exact ih p.second i h2

theorem target_go_of_not_chainFrom (A : Aggregator) :
    ∀ (l : List AvailablePool) (cp : CurrencyId) (m : Balance),
      ¬ ChainFrom cp l → target_go A cp m l = none := by
  intro l
  induction l with
  | nil => intro cp m h; exact absurd trivial h
  | cons p r ih =>
    intro cp m h
    by_cases h1 : cp = p.first
    · have h2 : ¬ ChainFrom p.second r := fun hc => h ⟨h1, hc⟩
      simp only [target_go, if_pos h1]
      cases A.aggregator_get_target_amount p m with
      | none => rfl
      | some i => exact ih p.second i h2
    · simp only [target_go, if_neg h1]

theorem supply_go_of_chainFromRev (A : Aggregator) :
    ∀ (l : List AvailablePool) (cp : CurrencyId) (m : Balance),
      ChainFromRev cp l → supply_go A cp m l = evalChainS A l m := by
  intro l
  induction l with
  | nil => intro cp m _; rfl
  | cons p r ih =>
    intro cp m h
    obtain ⟨h1, h2⟩ := h
    simp only [supply_go, evalChainS, if_pos h1]
    cases A.aggregator_get_supply_amount p m with
    | none => rfl
    | some i => exact ih p.first i h2

theorem supply_go_of_not_chainFromRev (A : Aggregator) :
    ∀ (l : List AvailablePool) (cp : CurrencyId) (m : Balance),
      ¬ ChainFromRev cp l → supply_go A cp m l = none := by
  intro l
  induction l with
  | nil => intro cp m h; exact absurd trivial h
  | cons p r ih =>
    intro cp m h
    by_cases h1 : cp = p.second
    · have h2 : ¬ ChainFromRev p.first r := fun hc => h ⟨h1, hc⟩
      simp only [supply_go, if_pos h1]
      cases A.aggregator_get_supply_amount p m with
      | none => rfl
      | some i => exact ih p.first i h2
    · simp only [supply_go, if_neg h1]

theorem chainFrom_iff_chain' :
    ∀ (r : List AvailablePool) (p : AvailablePool),
      ChainFrom p.second r ↔ List.Chain' contRel (p :: r) := by
  intro r
  induction r with
  | nil => intro p; simp [ChainFrom]
  | cons q r' ih =>
    intro p
    rw [List.chain'_cons]
    constructor
    · rintro ⟨h1, h2⟩; exact ⟨h1, (ih q).mp h2⟩
    · rintro ⟨h1, h2⟩; exact ⟨h1, (ih q).mpr h2⟩

theorem chainFromRev_iff_chain' :
    ∀ (r : List AvailablePool) (p : AvailablePool),
      ChainFromRev p.first r ↔ List.Chain' contRelRev (p :: r) := by
  intro r
  induction r with
  | nil => intro p; simp [ChainFromRev]
  | cons q r' ih =>
    intro p
    rw [List.chain'_cons]
    constructor
    · rintro ⟨h1, h2⟩; exact ⟨h1, (ih q).mp h2⟩
    · rintro ⟨h1, h2⟩; exact ⟨h1, (ih q).mpr h2⟩

/-- Continuity of a path is the same as reversed continuity of its reversal. -/
theorem chain'_contRel_reverse (path : List AvailablePool) :
    List.Chain' contRelRev path.reverse ↔ List.Chain' contRel path := by
  rw [List.chain'_reverse]
  constructor
  · exact fun h => h.imp (fun _ _ hab => hab.symm)
  · exact fun h => h.imp (fun _ _ hab => hab.symm)

/-- Characterization of the forward route evaluator: it answers exactly when
the path is non-empty and continuous and every oracle query answers, and then
it is the full oracle chain — never a partial amount. -/
theorem get_target_amount_iff (A : Aggregator) (path : List AvailablePool)
    (s r : Balance) :
    get_target_amount A path s = some r ↔
      path ≠ [] ∧ List.Chain' contRel path ∧ evalChainT A path s = some r := by
  cases path with
  | nil => simp [get_target_amount]
  | cons p rest =>
    simp only [get_target_amount, ne_eq, reduceCtorEq, not_false_iff, true_and]
    by_cases hc : ChainFrom p.second rest
    · have hch : List.Chain' contRel (p :: rest) := (chainFrom_iff_chain' rest p).mp hc
      rw [target_go_of_chainFrom A _ _ _ (chainFrom_cons.mpr ⟨rfl, hc⟩)]
      simp [hch]
    · have hch : ¬ List.Chain' contRel (p :: rest) :=
        fun h => hc ((chainFrom_iff_chain' rest p).mpr h)
      rw [target_go_of_not_chainFrom A _ _ _ (fun h => hc (chainFrom_cons.mp h).2)]
      simp [hch]

/-- Characterization of the backward route evaluator: it answers exactly when
the path is non-empty and continuous and every inverse oracle query along the
reversed path answers. -/
theorem get_supply_amount_iff (A : Aggregator) (path : List AvailablePool)
    (t r : Balance) :
    get_supply_amount A path t = some r ↔
      path ≠ [] ∧ List.Chain' contRel path ∧ evalChainS A path.reverse t = some r := by
  cases hrev : path.reverse with
  | nil =>
    have : path = [] := by simpa using congrArg List.reverse hrev
    subst this
    simp [get_supply_amount]
  | cons p rest =>
    have hne : path ≠ [] := by
      intro h; rw [h] at hrev; simp at hrev
    have hlast : path.getLast? = some p := by
      rw [← List.head?_reverse, hrev, List.head?_cons]
    simp only [get_supply_amount, hlast, hne, ne_eq, not_false_iff, true_and]
    rw [← chain'_contRel_reverse, hrev]
    by_cases hc : ChainFromRev p.first rest
    · have hch : List.Chain' contRelRev (p :: rest) := (chainFromRev_iff_chain' rest p).mp hc
      rw [supply_go_of_chainFromRev A _ _ _ (chainFromRev_cons.mpr ⟨rfl, hc⟩)]
      simp [hch]
    · have hch : ¬ List.Chain' contRelRev (p :: rest) :=
        fun h => hc ((chainFromRev_iff_chain' rest p).mpr h)
      rw [supply_go_of_not_chainFromRev A _ _ _ (fun h => hc (chainFromRev_cons.mp h).2)]
      simp [hch]

theorem foldl_preserve {α : Type u} {β : Type v} (P : α → Prop) (f : α → β → α) :
    ∀ (l : List β) (st : α),
      (∀ a b, b ∈ l → P a → P (f a b)) → P st → P (l.foldl f st) := by
  intro l
  induction l with
  | nil => intro st _ h; exact h
  | cons b t ih =>
    intro st hstep h
    simp only [List.foldl_cons]
    exact ih _ (fun a b' hb' => hstep a b' (List.mem_cons_of_mem _ hb'))
      (hstep st b (List.mem_cons_self _ _) h)

theorem pool_first_match_eq {id : CurrencyId} {pool mp : AvailablePool}
    (h : pool_first_match id pool = some mp) : mp.first = id := by
  unfold pool_first_match at h
  split_ifs at h with h1 h2
  · injection h with h'; subst h'; exact h1
  · injection h with h'; subst h'; exact h2

theorem pool_second_match_eq {id : CurrencyId} {pool mp : AvailablePool}
    (h : pool_second_match id pool = some mp) : mp.second = id := by
  unfold pool_second_match at h
  split_ifs at h with h1 h2
  · injection h with h'; subst h'; exact h1
  · injection h with h'; subst h'; exact h2

theorem exists_decomp_two {q : List AvailablePool} (h : 2 ≤ q.length) :
    ∃ w y x, q = w ++ [y, x] := by
  cases hq : q.reverse with
  | nil =>
    rw [← List.length_reverse, hq] at h
    simp at h
  | cons x t =>
    cases t with
    | nil =>
      rw [← List.length_reverse, hq] at h
      simp at h
    | cons y w' =>
      refine ⟨w'.reverse, y, x, ?_⟩
      have := congrArg List.reverse hq
      simpa [List.append_assoc] using this

theorem vecInsert_length_concat (a x : α) :
    ∀ (init : List α), vecInsert init.length a (init ++ [x]) = init ++ [a, x] := by
  intro init
  induction init with
  | nil => rfl
  | cons c t ih =>
    simp only [List.cons_append, List.length_cons, vecInsert]
    exact congrArg (fun l => c :: l) ih

theorem getD_concat2_left (w : List α) (y x d : α) :
    (w ++ [y, x]).getD w.length d = y := by
  induction w with
  | nil => rfl
  | cons c t ih => simpa using ih

theorem getD_concat2_right (w : List α) (y x d : α) :
    (w ++ [y, x]).getD (w.length + 1) d = x := by
  induction w with
  | nil => rfl
  | cons c t ih => simpa using ih

theorem pathSource_concat3 (w : List AvailablePool) (y mp x : AvailablePool) :
    pathSource (w ++ [y, mp, x]) = pathSource (w ++ [y, x]) := by
  cases w <;> simp [pathSource]

theorem pathDest_concat (w : List AvailablePool) (x : AvailablePool) :
    pathDest (w ++ [x]) = some x.second := by
  simp [pathDest, List.getLast?_concat]

theorem invS_push_pool {pair : TradingDirection} {a : SearchState} {mp : AvailablePool}
    (h : InvS pair a) (hm : mp.first = pair.first) :
    InvS pair { a with cached_pools := a.cached_pools ++ [mp] } := by
  refine ⟨?_, h.2.1, h.2.2⟩
  intro p hp
  rcases List.mem_append.mp hp with h' | h'
  · exact h.1 p h'
  · rw [List.mem_singleton.mp h']; exact hm

theorem invS_push_path {pair : TradingDirection} {a : SearchState} {q : List AvailablePool}
    (h : InvS pair a) (hq : FrontierOk pair q) :
    InvS pair { a with cached_paths := a.cached_paths ++ [q] } := by
  refine ⟨h.1, ?_, h.2.2⟩
  intro r hr
  rcases List.mem_append.mp hr with h' | h'
  · exact h.2.1 r h'
  · rw [List.mem_singleton.mp h']; exact hq

theorem invS_update_opt {pair : TradingDirection} {a : SearchState}
    {q : List AvailablePool} {nb : Balance}
    (h : InvS pair a) (hg : GoodPath pair q) (hpos : 0 < nb) :
    InvS pair { a with optimal_path := q, optimal_balance := nb } :=
  ⟨h.1, h.2.1, Or.inr ⟨hg, hpos⟩⟩

theorem supplyStep0_invS (A : Aggregator) (pair : TradingDirection) (s : Balance)
    {st : SearchState} (h : InvS pair st) : InvS pair (supplyStep0 A pair s st) := by
  unfold supplyStep0
  refine foldl_preserve (InvS pair) _ _ _ (fun a pool _ ha => ?_) h
  dsimp only
  cases hm : pool_first_match pair.first pool with
  | none => exact ha
  | some mp =>
    dsimp only
    have hmp := pool_first_match_eq hm
    have h1 : InvS pair { a with cached_pools := a.cached_pools ++ [mp] } :=
      invS_push_pool ha hmp
    by_cases hsec : mp.second = pair.second
    · rw [if_pos hsec]
      cases ho : A.aggregator_get_target_amount mp s with
      | none => exact h1
      | some nb =>
        dsimp only
        by_cases hlt : a.optimal_balance < nb
        · rw [if_pos hlt]
          exact invS_update_opt h1
            ⟨by simp, List.chain'_singleton mp, by simp [pathSource, hmp],
              by simp [pathDest, hsec]⟩
            (Nat.lt_of_le_of_lt (Nat.zero_le _) hlt)
        · rw [if_neg hlt]; exact h1
    · rw [if_neg hsec]; exact h1

theorem supplyStep1_invS (A : Aggregator) (pair : TradingDirection) (s : Balance)
    {st : SearchState} (h : InvS pair st) : InvS pair (supplyStep1 A pair s st) := by
  unfold supplyStep1
  refine foldl_preserve (InvS pair) _ _ _ (fun a1 cp hcp ha1 => ?_) h
  have hcpf : cp.first = pair.first := h.1 cp hcp
  dsimp only
  refine foldl_preserve (InvS pair) _ _ _ (fun a2 pool _ ha2 => ?_) ha1
  dsimp only
  cases hm : pool_second_match pair.second pool with
  | none => exact ha2
  | some mp =>
    dsimp only
    have hmp := pool_second_match_eq hm
    have hfo : FrontierOk pair [cp, mp] :=
      ⟨by simp, by simp, by simp [pathSource, hcpf], by simp [pathDest, hmp]⟩
    have h1 : InvS pair { a2 with cached_paths := a2.cached_paths ++ [[cp, mp]] } :=
      invS_push_path ha2 hfo
    by_cases hfirst : mp.first = cp.second
    · rw [if_pos hfirst]
      cases ho : get_target_amount A [cp, mp] s with
      | none => exact h1
      | some nb =>
        dsimp only
        by_cases hlt : a2.optimal_balance < nb
        · rw [if_pos hlt]
          exact invS_update_opt h1
            ⟨by simp, List.chain'_cons.mpr ⟨hfirst.symm, List.chain'_singleton mp⟩,
              by simp [pathSource, hcpf], by simp [pathDest, hmp]⟩
            (Nat.lt_of_le_of_lt (Nat.zero_le _) hlt)
        · rw [if_neg hlt]; exact h1
    · rw [if_neg hfirst]; exact h1

theorem chain'_snoc_of {l : List AvailablePool} {y mp : AvailablePool}
    (hC : List.Chain' contRel (l ++ [y])) (hlink : y.second = mp.first) :
    List.Chain' contRel ((l ++ [y]) ++ [mp]) := by
  rw [List.chain'_append]
  refine ⟨hC, List.chain'_singleton mp, ?_⟩
  intro v hv u hu
  rw [List.getLast?_concat] at hv
  simp only [List.head?_cons, Option.mem_def, Option.some.injEq] at hv hu
  rw [← hv, ← hu]
  exact hlink

theorem chain'_snoc2_of {l : List AvailablePool} {y mp x : AvailablePool}
    (hC : List.Chain' contRel (l ++ [y])) (hlink : y.second = mp.first)
    (hlink2 : mp.second = x.first) :
    List.Chain' contRel ((l ++ [y]) ++ [mp, x]) := by
  rw [List.chain'_append]
  refine ⟨hC, List.chain'_cons.mpr ⟨hlink2, List.chain'_singleton x⟩, ?_⟩
  intro v hv u hu
  rw [List.getLast?_concat] at hv
  simp only [List.head?_cons, Option.mem_def, Option.some.injEq] at hv hu
  rw [← hv, ← hu]
  exact hlink

theorem supplyStep2_invS (A : Aggregator) (s : Balance) {i : Nat} (hi : 2 ≤ i)
    {pair : TradingDirection} {st : SearchState} (h : InvS pair st) :
    InvS pair (supplyStep2 A s i st) := by
  unfold supplyStep2
  refine foldl_preserve (InvS pair) _ _ _ (fun a2 path hpath ha2 => ?_)
    ⟨h.1, by simp, h.2.2⟩
  have hfo : FrontierOk pair path := h.2.1 path hpath
  dsimp only
  by_cases hlen : path.length = i
  · rw [if_pos hlen]
    obtain ⟨w, y, x, rfl⟩ := exists_decomp_two (q := path) (by omega)
    have hlen2 : (w ++ [y, x]).length = w.length + 2 := by simp
    have hidx1 : (w ++ [y, x]).length - 2 = w.length := by omega
    have hidx2 : (w ++ [y, x]).length - 1 = w.length + 1 := by omega
    simp only [hidx1, hidx2, getD_concat2_left, getD_concat2_right]
    have hdropC : (w ++ [y, x]).dropLast = w ++ [y] := by
      rw [show w ++ [y, x] = (w ++ [y]) ++ [x] by simp, List.dropLast_concat]
    have hchainWY : List.Chain' contRel (w ++ [y]) := by
      have := hfo.2.1; rwa [hdropC] at this
    have hsrc : pathSource (w ++ [y, x]) = some pair.first := hfo.2.2.1
    have hdst : x.second = pair.second := by
      have := hfo.2.2.2
      rw [show w ++ [y, x] = (w ++ [y]) ++ [x] by simp, pathDest_concat] at this
      exact Option.some.inj this
    refine foldl_preserve (InvS pair) _ _ _ (fun a3 pool _ ha3 => ?_) ha2
    dsimp only
    cases hm : pool_first_match y.second pool with
    | none => exact ha3
    | some mp =>
      dsimp only
      have hmp := pool_first_match_eq hm
      have hins : vecInsert (i - 1) mp (w ++ [y, x]) = (w ++ [y]) ++ [mp, x] := by
        have hi1 : i - 1 = (w ++ [y]).length := by simp; omega
        rw [hi1, show w ++ [y, x] = (w ++ [y]) ++ [x] by simp, vecInsert_length_concat]
      simp only [hins]
      have hfoNew : FrontierOk pair ((w ++ [y]) ++ [mp, x]) := by
        refine ⟨by simp, ?_, ?_, ?_⟩
        · rw [show (w ++ [y]) ++ [mp, x] = ((w ++ [y]) ++ [mp]) ++ [x] by simp,
            List.dropLast_concat]
          exact chain'_snoc_of hchainWY hmp.symm
        · rw [show (w ++ [y]) ++ [mp, x] = w ++ [y, mp, x] by simp, pathSource_concat3]
          exact hsrc
        · rw [show (w ++ [y]) ++ [mp, x] = ((w ++ [y]) ++ [mp]) ++ [x] by simp,
            pathDest_concat, hdst]
      have h1 : InvS pair
          { a3 with cached_paths := a3.cached_paths ++ [(w ++ [y]) ++ [mp, x]] } :=
        invS_push_path ha3 hfoNew
      by_cases hsec : x.first = mp.second
      · rw [if_pos hsec]
        cases ho : get_target_amount A (w ++ [y, x]) s with
        | none => exact h1
        | some nb =>
          dsimp only
          by_cases hlt : a3.optimal_balance < nb
          · rw [if_pos hlt]
            refine invS_update_opt h1 ⟨by simp, chain'_snoc2_of hchainWY hmp.symm hsec.symm,
              ?_, ?_⟩ (Nat.lt_of_le_of_lt (Nat.zero_le _) hlt)
            · rw [show (w ++ [y]) ++ [mp, x] = w ++ [y, mp, x] by simp, pathSource_concat3]
              exact hsrc
            · rw [show (w ++ [y]) ++ [mp, x] = ((w ++ [y]) ++ [mp]) ++ [x] by simp,
                pathDest_concat, hdst]
          · rw [if_neg hlt]; exact h1
      · rw [if_neg hsec]; exact h1
  · rw [if_neg hlen]; exact ha2

theorem supplyStep_invS (A : Aggregator) (pair : TradingDirection) (s : Balance) (i : Nat)
    {st : SearchState} (h : InvS pair st) : InvS pair (supplyStep A pair s st i) := by
  unfold supplyStep
  by_cases h0 : i = 0
  · rw [if_pos h0]; exact supplyStep0_invS A pair s h
  · rw [if_neg h0]
    by_cases h1 : i = 1
    · rw [if_pos h1]; exact supplyStep1_invS A pair s h
    · rw [if_neg h1]; exact supplyStep2_invS A s (by omega) h

/-- The exact-supply search invariant holds after any number of iterations. -/
theorem runSupply_invS (A : Aggregator) (pair : TradingDirection) (s : Balance) :
    ∀ k, InvS pair (runSupply A pair s k) := by
  intro k
  induction k with
  | zero =>
    refine ⟨?_, ?_, Or.inl rfl⟩ <;> intro q hq <;> cases hq
  | succ k ih => exact supplyStep_invS A pair s k ih

theorem invT_push_pool {pair : TradingDirection} {a : SearchState} {mp : AvailablePool}
    (h : InvT pair a) (hm : mp.first = pair.first) :
    InvT pair { a with cached_pools := a.cached_pools ++ [mp] } := by
  refine ⟨?_, h.2.1, h.2.2⟩
  intro p hp
  rcases List.mem_append.mp hp with h' | h'
  · exact h.1 p h'
  · rw [List.mem_singleton.mp h']; exact hm

theorem invT_push_path {pair : TradingDirection} {a : SearchState} {q : List AvailablePool}
    (h : InvT pair a) (hq : FrontierOk pair q) :
    InvT pair { a with cached_paths := a.cached_paths ++ [q] } := by
  refine ⟨h.1, ?_, h.2.2⟩
  intro r hr
  rcases List.mem_append.mp hr with h' | h'
  · exact h.2.1 r h'
  · rw [List.mem_singleton.mp h']; exact hq

theorem invT_update_opt {pair : TradingDirection} {a : SearchState}
    {q : List AvailablePool} {nb : Balance}
    (h : InvT pair a) (hg : GoodPath pair q) (hlt : nb < a.optimal_balance) :
    InvT pair { a with optimal_path := q, optimal_balance := nb } :=
  ⟨h.1, h.2.1, Nat.le_of_lt (Nat.lt_of_lt_of_le hlt h.2.2.1),
    Or.inr ⟨hg, Nat.lt_of_lt_of_le hlt h.2.2.1⟩⟩

theorem targetStep0_invT (A : Aggregator) (pair : TradingDirection) (t : Balance)
    {st : SearchState} (h : InvT pair st) : InvT pair (targetStep0 A pair t st) := by
  unfold targetStep0
  refine foldl_preserve (InvT pair) _ _ _ (fun a pool _ ha => ?_) h
  dsimp only
  cases hm : pool_first_match pair.first pool with
  | none => exact ha
  | some mp =>
    dsimp only
    have hmp := pool_first_match_eq hm
    have h1 : InvT pair { a with cached_pools := a.cached_pools ++ [mp] } :=
      invT_push_pool ha hmp
    by_cases hsec : mp.second = pair.second
    · rw [if_pos hsec]
      cases ho : A.aggregator_get_supply_amount mp t with
      | none => exact h1
      | some nb =>
        dsimp only
        by_cases hlt : nb < a.optimal_balance
        · rw [if_pos hlt]
          exact invT_update_opt h1
            ⟨by simp, List.chain'_singleton mp, by simp [pathSource, hmp],
              by simp [pathDest, hsec]⟩ hlt
        · rw [if_neg hlt]; exact h1
    · rw [if_neg hsec]; exact h1

theorem targetStep1_invT (A : Aggregator) (pair : TradingDirection) (t : Balance)
    {st : SearchState} (h : InvT pair st) : InvT pair (targetStep1 A pair t st) := by
  unfold targetStep1
  refine foldl_preserve (InvT pair) _ _ _ (fun a1 cp hcp ha1 => ?_) h
  have hcpf : cp.first = pair.first := h.1 cp hcp
  dsimp only
  refine foldl_preserve (InvT pair) _ _ _ (fun a2 pool _ ha2 => ?_) ha1
  dsimp only
  cases hm : pool_second_match pair.second pool with
  | none => exact ha2
  | some mp =>
    dsimp only
    have hmp := pool_second_match_eq hm
    have hfo : FrontierOk pair [cp, mp] :=
      ⟨by simp, by simp, by simp [pathSource, hcpf], by simp [pathDest, hmp]⟩
    have h1 : InvT pair { a2 with cached_paths := a2.cached_paths ++ [[cp, mp]] } :=
      invT_push_path ha2 hfo
    by_cases hfirst : mp.first = cp.second
    · rw [if_pos hfirst]
      cases ho : get_supply_amount A [cp, mp] t with
      | none => exact h1
      | some nb =>
        dsimp only
        by_cases hlt : nb < a2.optimal_balance
        · rw [if_pos hlt]
          exact invT_update_opt h1
            ⟨by simp, List.chain'_cons.mpr ⟨hfirst.symm, List.chain'_singleton mp⟩,
              by simp [pathSource, hcpf], by simp [pathDest, hmp]⟩ hlt
        · rw [if_neg hlt]; exact h1
    · rw [if_neg hfirst]; exact h1

theorem targetStep2_invT (A : Aggregator) (t : Balance) {i : Nat} (hi : 2 ≤ i)
    {pair : TradingDirection} {st : SearchState} (h : InvT pair st) :
    InvT pair (targetStep2 A t i st) := by
  unfold targetStep2
  refine foldl_preserve (InvT pair) _ _ _ (fun a2 path hpath ha2 => ?_)
    ⟨h.1, by simp, h.2.2⟩
  have hfo : FrontierOk pair path := h.2.1 path hpath
  dsimp only
  by_cases hlen : path.length = i
  · rw [if_pos hlen]
    obtain ⟨w, y, x, rfl⟩ := exists_decomp_two (q := path) (by omega)
    have hlen2 : (w ++ [y, x]).length = w.length + 2 := by simp
    have hidx1 : (w ++ [y, x]).length - 2 = w.length := by omega
    have hidx2 : (w ++ [y, x]).length - 1 = w.length + 1 := by omega
    simp only [hidx1, hidx2, getD_concat2_left, getD_concat2_right]
    have hdropC : (w ++ [y, x]).dropLast = w ++ [y] := by
      rw [show w ++ [y, x] = (w ++ [y]) ++ [x] by simp, List.dropLast_concat]
    have hchainWY : List.Chain' contRel (w ++ [y]) := by
      have := hfo.2.1; rwa [hdropC] at this
    have hsrc : pathSource (w ++ [y, x]) = some pair.first := hfo.2.2.1
    have hdst : x.second = pair.second := by
      have := hfo.2.2.2
      rw [show w ++ [y, x] = (w ++ [y]) ++ [x] by simp, pathDest_concat] at this
      exact Option.some.inj this
    refine foldl_preserve (InvT pair) _ _ _ (fun a3 pool _ ha3 => ?_) ha2
    dsimp only
    cases hm : pool_first_match y.second pool with
    | none => exact ha3
    | some mp =>
      dsimp only
      have hmp := pool_first_match_eq hm
      have hins : vecInsert (i - 1) mp (w ++ [y, x]) = (w ++ [y]) ++ [mp, x] := by
        have hi1 : i - 1 = (w ++ [y]).length := by simp; omega
        rw [hi1, show w ++ [y, x] = (w ++ [y]) ++ [x] by simp, vecInsert_length_concat]
      simp only [hins]
      have hfoNew : FrontierOk pair ((w ++ [y]) ++ [mp, x]) := by
        refine ⟨by simp, ?_, ?_, ?_⟩
        · rw [show (w ++ [y]) ++ [mp, x] = ((w ++ [y]) ++ [mp]) ++ [x] by simp,
            List.dropLast_concat]
          exact chain'_snoc_of hchainWY hmp.symm
        · rw [show (w ++ [y]) ++ [mp, x] = w ++ [y, mp, x] by simp, pathSource_concat3]
          exact hsrc
        · rw [show (w ++ [y]) ++ [mp, x] = ((w ++ [y]) ++ [mp]) ++ [x] by simp,
            pathDest_concat, hdst]
      have h1 : InvT pair
          { a3 with cached_paths := a3.cached_paths ++ [(w ++ [y]) ++ [mp, x]] } :=
        invT_push_path ha3 hfoNew
      by_cases hsec : x.first = mp.second
      · rw [if_pos hsec]
        cases ho : get_supply_amount A (w ++ [y, x]) t with
        | none => exact h1
        | some nb =>
          dsimp only
          by_cases hlt : nb < a3.optimal_balance
          · rw [if_pos hlt]
            refine invT_update_opt h1 ⟨by simp, chain'_snoc2_of hchainWY hmp.symm hsec.symm,
              ?_, ?_⟩ hlt
            · rw [show (w ++ [y]) ++ [mp, x] = w ++ [y, mp, x] by simp, pathSource_concat3]
              exact hsrc
            · rw [show (w ++ [y]) ++ [mp, x] = ((w ++ [y]) ++ [mp]) ++ [x] by simp,
                pathDest_concat, hdst]
          · rw [if_neg hlt]; exact h1
      · rw [if_neg hsec]; exact h1
  · rw [if_neg hlen]; exact ha2

theorem targetStep_invT (A : Aggregator) (pair : TradingDirection) (t : Balance) (i : Nat)
    {st : SearchState} (h : InvT pair st) : InvT pair (targetStep A pair t st i) := by
  unfold targetStep
  by_cases h0 : i = 0
  · rw [if_pos h0]; exact targetStep0_invT A pair t h
  · rw [if_neg h0]
    by_cases h1 : i = 1
    · rw [if_pos h1]; exact targetStep1_invT A pair t h
    · rw [if_neg h1]; exact targetStep2_invT A t (by omega) h

/-- The exact-target search invariant holds after any number of iterations. -/
theorem runTarget_invT (A : Aggregator) (pair : TradingDirection) (t : Balance) :
    ∀ k, InvT pair (runTarget A pair t k) := by
  intro k
  induction k with
  | zero =>
    refine ⟨?_, ?_, Nat.le_refl _, Or.inl rfl⟩ <;> intro q hq <;> cases hq
  | succ k ih => exact targetStep_invT A pair t k ih

/-! ## Claim theorems -/

/-- C3: any path returned by `optimal_path_with_exact_supply` or
`optimal_path_with_exact_target` is non-empty, each hop's output token equals
the next hop's input token, the first hop's input token is the requested
source and the last hop's output token is the requested destination. -/
theorem C3_returned_path_continuity :
    (∀ (A : Aggregator) (limit : Nat) (pair : TradingDirection) (s : Balance)
        (path : List AvailablePool) (amt : Balance),
        optimal_path_with_exact_supply A limit pair s = some (path, amt) →
        path ≠ [] ∧ List.Chain' contRel path ∧
          pathSource path = some pair.first ∧ pathDest path = some pair.second) ∧
    (∀ (A : Aggregator) (limit : Nat) (pair : TradingDirection) (t : Balance)
        (path : List AvailablePool) (amt : Balance),
        optimal_path_with_exact_target A limit pair t = some (path, amt) →
        path ≠ [] ∧ List.Chain' contRel path ∧
          pathSource path = some pair.first ∧ pathDest path = some pair.second) := by
  constructor
  · intro A limit pair s path amt h
    unfold optimal_path_with_exact_supply at h
    by_cases hne : (runSupply A pair s limit).optimal_path = []
    · rw [if_pos hne] at h; cases h
    · rw [if_neg hne] at h
      injection h with h'
      have h1 : (runSupply A pair s limit).optimal_path = path := congrArg Prod.fst h'
      rcases (runSupply_invS A pair s limit).2.2 with hempty | ⟨hgood, _⟩
      · exact absurd hempty hne
      · rw [← h1]; exact hgood
  · intro A limit pair t path amt h
    unfold optimal_path_with_exact_target at h
    by_cases hne : (runTarget A pair t limit).optimal_path = []
    · rw [if_pos hne] at h; cases h
    · rw [if_neg hne] at h
      injection h with h'
      have h1 : (runTarget A pair t limit).optimal_path = path := congrArg Prod.fst h'
      rcases (runTarget_invT A pair t limit).2.2.2 with hempty | ⟨hgood, _⟩
      · exact absurd hempty hne
      · rw [← h1]; exact hgood

/-- Witness for C3 at a concrete two-pool registry and direction 0 → 2. -/
theorem C3_returned_path_continuity_witness :
    ([⟨0, 0, 1⟩, ⟨0, 1, 2⟩] : List AvailablePool) ≠ [] ∧
    List.Chain' contRel [⟨0, 0, 1⟩, ⟨0, 1, 2⟩] ∧
    pathSource [⟨0, 0, 1⟩, ⟨0, 1, 2⟩] = some 0 ∧
    pathDest [⟨0, 0, 1⟩, ⟨0, 1, 2⟩] = some 2 :=
  C3_returned_path_continuity.1 aggC3 3 ⟨0, 2⟩ 10 [⟨0, 0, 1⟩, ⟨0, 1, 2⟩] 12 rfl

/-- C4 counterexample: searching 0 → 3 over the registry [(0,1), (2,3)]
stores, at the second iteration, the partial path [(0,1), (2,3)] in
`cached_paths`, which is *not* hop-to-hop continuous: the pair is pushed to
the frontier before the `matched_pool.first() == cache_pool.second()` check
runs. -/
theorem C4_frontier_discontinuity_counterexample :
    [⟨0, 0, 1⟩, ⟨0, 2, 3⟩] ∈ (runSupply aggC4 ⟨0, 3⟩ 10 2).cached_paths ∧
    ¬ List.Chain' contRel ([⟨0, 0, 1⟩, ⟨0, 2, 3⟩] : List AvailablePool) := by
  constructor
  · have h : (runSupply aggC4 ⟨0, 3⟩ 10 2).cached_paths = [[⟨0, 0, 1⟩, ⟨0, 2, 3⟩]] := rfl
    rw [h]
    exact List.mem_singleton.mpr rfl
  · intro hC
    have h1 : (1 : Nat) = 2 := (List.chain'_cons.mp hC).1
    cases h1

/-- C4 amended: every partial path stored in the exact-supply frontier, at
every iteration count, has at least two hops, endpoints matching the request
(first hop's input = source, last hop's output = destination), and is
continuous at every junction *except possibly the one before its final hop*
(extensions are inserted just before the final hop with an input token
matching the previous hop's output, but the check against the final hop's
input happens only at scoring time). -/
theorem C4_frontier_invariant_amended :
    ∀ (A : Aggregator) (pair : TradingDirection) (s : Balance) (k : Nat),
      ∀ q ∈ (runSupply A pair s k).cached_paths,
        2 ≤ q.length ∧ List.Chain' contRel q.dropLast ∧
          pathSource q = some pair.first ∧ pathDest q = some pair.second :=
  fun A pair s k q hq => (runSupply_invS A pair s k).2.1 q hq

/-- Witness for the amended C4 invariant at the concrete discontinuous
frontier entry of `aggC4`. -/
theorem C4_frontier_invariant_amended_witness :
    2 ≤ ([⟨0, 0, 1⟩, ⟨0, 2, 3⟩] : List AvailablePool).length ∧
    List.Chain' contRel ([⟨0, 0, 1⟩, ⟨0, 2, 3⟩] : List AvailablePool).dropLast ∧
    pathSource [⟨0, 0, 1⟩, ⟨0, 2, 3⟩] = some 0 ∧
    pathDest [⟨0, 0, 1⟩, ⟨0, 2, 3⟩] = some 3 :=
  C4_frontier_invariant_amended aggC4 ⟨0, 3⟩ 10 2 [⟨0, 0, 1⟩, ⟨0, 2, 3⟩]
    (by
      have h : (runSupply aggC4 ⟨0, 3⟩ 10 2).cached_paths = [[⟨0, 0, 1⟩, ⟨0, 2, 3⟩]] := rfl
      rw [h]
      exact List.mem_singleton.mpr rfl)

/-- C8: each route evaluator returns an amount exactly when the path is
non-empty, every hop passes its continuity check against the running token,
and every pricing-oracle query answers; on any failure the whole evaluation
is `none`, never a partial amount. The forward walk chains the forward
oracle; the backward walk chains the inverse oracle over the reversed path. -/
theorem C8_evaluator_failure_propagation :
    ∀ (A : Aggregator) (path : List AvailablePool) (s t r : Balance),
      (get_target_amount A path s = some r ↔
        path ≠ [] ∧ List.Chain' contRel path ∧ evalChainT A path s = some r) ∧
      (get_supply_amount A path t = some r ↔
        path ≠ [] ∧ List.Chain' contRel path ∧ evalChainS A path.reverse t = some r) :=
  fun A path s t r =>
    ⟨get_target_amount_iff A path s r, get_supply_amount_iff A path t r⟩

/-- C9: evaluating a one-hop path forward equals the direct forward oracle
query on that pool, and evaluating it backward equals the direct inverse
oracle query. -/
theorem C9_single_hop_consistency :
    ∀ (A : Aggregator) (p : AvailablePool) (s t : Balance),
      get_target_amount A [p] s = A.aggregator_get_target_amount p s ∧
      get_supply_amount A [p] t = A.aggregator_get_supply_amount p t := by
  intro A p s t
  constructor
  · show target_go A p.first s [p] = _
    simp only [target_go, if_pos rfl]
    cases A.aggregator_get_target_amount p s <;> rfl
  · show supply_go A p.second t [p].reverse = _
    simp only [List.reverse_singleton, supply_go, if_pos rfl]
    cases A.aggregator_get_supply_amount p t <;> rfl

/-- C10: the exact-supply search starts from best balance 0 and only updates
on strictly greater values, so any returned quote is strictly positive; the
exact-target search starts from `u128::MAX` and only updates on strictly
smaller values, so any returned quote is strictly below `u128::MAX`, and a
sole candidate requiring exactly `u128::MAX` supply is reported as
`NoPossibleTradingPath`. -/
theorem C10_sentinel_exclusion :
    (∀ (A : Aggregator) (limit : Nat) (pair : TradingDirection) (s : Balance)
        (path : List AvailablePool) (amt : Balance),
        optimal_path_with_exact_supply A limit pair s = some (path, amt) → 0 < amt) ∧
    (∀ (A : Aggregator) (limit : Nat) (pair : TradingDirection) (t : Balance)
        (path : List AvailablePool) (amt : Balance),
        optimal_path_with_exact_target A limit pair t = some (path, amt) → amt < UMAX) ∧
    get_best_path_with_target aggC10 3 0 1 10 UMAX = .error .NoPossibleTradingPath := by
  refine ⟨?_, ?_, rfl⟩
  · intro A limit pair s path amt h
    unfold optimal_path_with_exact_supply at h
    by_cases hne : (runSupply A pair s limit).optimal_path = []
    · rw [if_pos hne] at h; cases h
    · rw [if_neg hne] at h
      injection h with h'
      have h2 : (runSupply A pair s limit).optimal_balance = amt := congrArg Prod.snd h'
      rcases (runSupply_invS A pair s limit).2.2 with hempty | ⟨_, hpos⟩
      · exact absurd hempty hne
      · rw [← h2]; exact hpos
  · intro A limit pair t path amt h
    unfold optimal_path_with_exact_target at h
    by_cases hne : (runTarget A pair t limit).optimal_path = []
    · rw [if_pos hne] at h; cases h
    · rw [if_neg hne] at h
      injection h with h'
      have h2 : (runTarget A pair t limit).optimal_balance = amt := congrArg Prod.snd h'
      rcases (runTarget_invT A pair t limit).2.2.2 with hempty | ⟨_, hlt⟩
      · exact absurd hempty hne
      · rw [← h2]; exact hlt

/-- Witness for C10 at concrete direct-pool registries: a supply quote of 5 is
positive and a target quote of 4 is below `u128::MAX`. -/
theorem C10_sentinel_exclusion_witness : (0 : Balance) < 5 ∧ (4 : Balance) < UMAX :=
  ⟨C10_sentinel_exclusion.1 aggC10s 3 ⟨0, 1⟩ 10 [⟨0, 0, 1⟩] 5 rfl,
    C10_sentinel_exclusion.2.1 aggC10t 3 ⟨0, 1⟩ 10 [⟨0, 0, 1⟩] 4 rfl⟩

/-- C1 evaluated at the failing input: with pools (0,1), (1,2), (2,3), (2,2),
hop limit 4 and an add-one-per-hop oracle, the exact-supply search for 0 → 3
at supply 10 returns the 4-hop path [(0,1), (1,2), (2,2), (2,3)] *quoted at
13* — the evaluation of the unextended 3-hop path scored in the `i ≥ 2`
branch — while evaluating the returned path end-to-end gives 14. The quote
and the returned path disagree, refuting route-quote consistency. -/
theorem C1_route_quote_mismatch :
    optimal_path_with_exact_supply aggC1 4 ⟨0, 3⟩ 10 =
      some ([⟨0, 0, 1⟩, ⟨0, 1, 2⟩, ⟨0, 2, 2⟩, ⟨0, 2, 3⟩], 13) ∧
    get_target_amount aggC1 [⟨0, 0, 1⟩, ⟨0, 1, 2⟩, ⟨0, 2, 2⟩, ⟨0, 2, 3⟩] 10 = some 14 :=
  ⟨rfl, rfl⟩

/-- C2 evaluated at the failing input: with hop limit 1 and a single direct
pool (0,1), the search returns the length-1 path, the length check
`len < limit` fails, and `get_best_path_with_supply` surfaces
`InvalidPathLength` to the caller — the defensive branch is reachable. The
extrinsic itself returns the error with the state untouched. -/
theorem C2_invalid_path_length_surfaced :
    optimal_path_with_exact_supply aggC2 1 ⟨0, 1⟩ 10 = some ([⟨0, 0, 1⟩], 5) ∧
    get_best_path_with_supply aggC2 1 0 1 10 0 = .error .InvalidPathLength ∧
    swap_with_exact_supply envC2 1 7 0 1 10 0 42 = (42, .error .InvalidPathLength) :=
  ⟨rfl, rfl, rfl⟩

/-- C5 counterexample: with a direct pool quoting exactly 5 and a caller
minimum of 5 (so the expected output does *not exceed* the minimum), the
entry point succeeds instead of failing: the source compares with `>=`, so
equality is accepted. -/
theorem C5_equality_accepted_counterexample :
    optimal_path_with_exact_supply aggC5 3 ⟨0, 1⟩ 10 = some ([⟨0, 0, 1⟩], 5) ∧
    get_best_path_with_supply aggC5 3 0 1 10 5 = .ok [⟨0, 0, 1⟩] :=
  ⟨rfl, rfl⟩

/-- C5 amended: the exact-supply entry point fails with `BelowMinimumTarget`
exactly when the pair is valid, the search succeeds, and the best path's
expected output is *strictly below* the caller's minimum (equality is
accepted); symmetrically the exact-target entry point fails with
`AboveMaximumSupply` exactly when the supply estimate is strictly above the
caller's maximum. Both failures happen during quote validation: the extrinsic
then returns the error with the state exactly as before the call, so no swap
executes. -/
theorem C5_slippage_threshold_amended :
    (∀ (A : Aggregator) (limit : Nat) (a b : CurrencyId) (s m : Balance),
      get_best_path_with_supply A limit a b s m = .error .BelowMinimumTarget ↔
        ∃ pair, TradingDirection.from_currency_ids a b = some pair ∧
          ∃ p amt, optimal_path_with_exact_supply A limit pair s = some (p, amt) ∧
            amt < m) ∧
    (∀ (A : Aggregator) (limit : Nat) (a b : CurrencyId) (t mx : Balance),
      get_best_path_with_target A limit a b t mx = .error .AboveMaximumSupply ↔
        ∃ pair, TradingDirection.from_currency_ids a b = some pair ∧
          ∃ p amt, optimal_path_with_exact_target A limit pair t = some (p, amt) ∧
            mx < amt) ∧
    (∀ (σ : Type) (E : ExecEnv σ) (limit who : Nat) (a b : CurrencyId)
        (s m : Balance) (st : σ) (e : AggError),
      get_best_path_with_supply E.agg limit a b s m = .error e →
      swap_with_exact_supply E limit who a b s m st = (st, .error e)) ∧
    (∀ (σ : Type) (E : ExecEnv σ) (limit who : Nat) (a b : CurrencyId)
        (t mx : Balance) (st : σ) (e : AggError),
      get_best_path_with_target E.agg limit a b t mx = .error e →
      swap_with_exact_target E limit who a b t mx st = (st, .error e)) := by
  refine ⟨?_, ?_, ?_, ?_⟩
  · intro A limit a b s m
    unfold get_best_path_with_supply
    cases hf : TradingDirection.from_currency_ids a b with
    | none => simp
    | some pair =>
      dsimp only
      cases ho : optimal_path_with_exact_supply A limit pair s with
      | none => simp [ho]
      | some best =>
        dsimp only
        obtain ⟨p, amt⟩ := best
        dsimp only
        by_cases hm : m ≤ amt
        · rw [if_pos hm]
          by_cases hl : p.length < limit
          · rw [if_pos hl]; simp [ho]; exact hm
          · rw [if_neg hl]; simp [ho]; exact hm
        · rw [if_neg hm]; simp [ho]
          exact ⟨p, amt, ⟨rfl, rfl⟩, Nat.lt_of_not_le hm⟩
  · intro A limit a b t mx
    unfold get_best_path_with_target
    cases hf : TradingDirection.from_currency_ids a b with
    | none => simp
    | some pair =>
      dsimp only
      cases ho : optimal_path_with_exact_target A limit pair t with
      | none => simp [ho]
      | some best =>
        dsimp only
        obtain ⟨p, amt⟩ := best
        dsimp only
        by_cases hm : amt ≤ mx
        · rw [if_pos hm]
          by_cases hl : p.length < limit
          · rw [if_pos hl]; simp [ho]; exact hm
          · rw [if_neg hl]; simp [ho]; exact hm
        · rw [if_neg hm]; simp [ho]
          exact ⟨p, amt, ⟨rfl, rfl⟩, Nat.lt_of_not_le hm⟩
  · intro σ E limit who a b s m st e h
    unfold swap_with_exact_supply transactional swap_with_exact_supply_body
    rw [h]
  · intro σ E limit who a b t mx st e h
    unfold swap_with_exact_target transactional swap_with_exact_target_body
    rw [h]

/-- Witness for the amended C5: a quote of 5 against a minimum of 7 is
rejected with `BelowMinimumTarget`. -/
theorem C5_slippage_threshold_amended_witness :
    get_best_path_with_supply aggC5 3 0 1 10 7 = .error .BelowMinimumTarget :=
  (C5_slippage_threshold_amended.1 aggC5 3 0 1 10 7).mpr
    ⟨⟨0, 1⟩, rfl, [⟨0, 0, 1⟩], 5, rfl, by decide⟩

/-- C6: both extrinsics are wrapped in the transactional scope, so whenever a
call returns an error — for any pool registry, oracle behaviour, swap
primitive behaviour, caller, tokens and amounts, including a final-hop
slippage failure after earlier hops already executed — the resulting state
equals the state before the call. -/
theorem C6_atomicity_on_failure :
    (∀ (σ : Type) (E : ExecEnv σ) (limit who : Nat) (a b : CurrencyId)
        (s m : Balance) (st : σ) (e : AggError),
      (swap_with_exact_supply E limit who a b s m st).2 = .error e →
      (swap_with_exact_supply E limit who a b s m st).1 = st) ∧
    (∀ (σ : Type) (E : ExecEnv σ) (limit who : Nat) (a b : CurrencyId)
        (t mx : Balance) (st : σ) (e : AggError),
      (swap_with_exact_target E limit who a b t mx st).2 = .error e →
      (swap_with_exact_target E limit who a b t mx st).1 = st) := by
  constructor
  · intro σ E limit who a b s m st e h
    unfold swap_with_exact_supply transactional at h ⊢
    cases hb : swap_with_exact_supply_body E limit who a b s m st with
    | mk s' r =>
      rw [hb] at h
      cases r with
      | ok u => exact Except.noConfusion h
      | error e' => rfl
  · intro σ E limit who a b t mx st e h
    unfold swap_with_exact_target transactional at h ⊢
    cases hb : swap_with_exact_target_body E limit who a b t mx st with
    | mk s' r =>
      rw [hb] at h
      cases r with
      | ok u => exact Except.noConfusion h
      | error e' => rfl

/-- Witness for C6: swap primitives that mutate the state to `s + 1` and then
fail leave the post-state at the pre-state 100. -/
theorem C6_atomicity_on_failure_witness :
    (swap_with_exact_supply envC6 3 7 0 1 10 0 100).1 = 100 :=
  C6_atomicity_on_failure.1 Nat envC6 3 7 0 1 10 0 100 (.Other 0) rfl

/-- C7: executing a non-empty best path `ps ++ [p]` with exact supply runs
every hop of `ps` with minimum target amount zero, threading each hop's
output balance into the next hop's supply, and then runs the final hop `p`
alone with the caller's `min_target_amount` as its minimum acceptable
output (errors short-circuit unchanged). -/
theorem C7_final_hop_only_slippage :
    ∀ (σ : Type) (E : ExecEnv σ) (who : Nat) (min_target_amount : Balance)
      (ps : List AvailablePool) (p : AvailablePool) (bal : Balance) (s : σ),
      exec_supply_hops E who min_target_amount (ps ++ [p]) bal s =
        match exec_supply_hops E who 0 ps bal s with
        | (s', .ok b) => E.swapS who p b min_target_amount s'
        | (s', .error e) => (s', .error e) := by
  intro σ E who mt ps
  induction ps with
  | nil => intro p bal s; rfl
  | cons q qs ih =>
    intro p bal s
    cases qs with
    | nil =>
      simp only [List.cons_append, List.nil_append, exec_supply_hops]
    | cons q2 qs2 =>
      simp only [List.cons_append, exec_supply_hops]
      cases hq : E.swapS who q bal 0 s with
      | mk s' r => cases r with
        | ok b' => simpa using ih p b' s'
        | error e => rfl

end DexAggregator
